import Mathlib

/-!
# Verification of the deckle HTML heading normalizer

A shallow embedding of `html-normalize-headings.py`.  Documents are
modelled as `List Char` (a Python `str` is a sequence of code points).
Each regular expression of the source is small enough to be rendered as a
deterministic scanner; every scanner follows the leftmost-match,
advance-one-on-failure discipline of `re.search` / `re.sub`, and the
greedy pieces (`[^>]*`, `[^<]+`) are deterministic because they can never
cross their terminating character.  Case-insensitive matching is modelled
by ASCII case folding.
-/

namespace Deckle

/-- The character set of Python `str.isspace` (also regex `\s`). -/
def pyIsSpace (c : Char) : Bool :=
  [' ', '\t', '\n', '\r', '\x0b', '\x0c', '\x1c', '\x1d', '\x1e', '\x1f',
   '\x85', ' ', ' ', ' ', ' ', ' ', ' ',
   ' ', ' ', ' ', ' ', ' ', ' ', ' ',
   ' ', ' ', ' ', ' ', '　'].contains c

/-- Python `str.strip()`: drop whitespace from both ends. -/
def strip (l : List Char) : List Char :=
  ((l.dropWhile pyIsSpace).reverse.dropWhile pyIsSpace).reverse

/-- ASCII case folding, modelling the `re.IGNORECASE` flag on the
ASCII-letter patterns of the source. -/
def lowerAscii (c : Char) : Char :=
  if 'A' ≤ c ∧ c ≤ 'Z' then Char.ofNat (c.toNat + 32) else c

/-- Does `s` start with the (already lowercase) pattern `p`, matching
case-insensitively? -/
def startsWithCI : List Char → List Char → Bool
  | [], _ => true
  | _ :: _, [] => false
  | p :: ps, c :: cs => (lowerAscii c = p) && startsWithCI ps cs

/-- `([^>]*)>`: split off the characters strictly before the first `'>'`
together with the rest after it; `none` when no `'>'` exists. -/
def upToGt : List Char → Option (List Char × List Char)
  | [] => none
  | c :: cs =>
    if c = '>' then some ([], cs)
    else (upToGt cs).map fun ar => (c :: ar.1, ar.2)

/-- `"Untitled"`, the literal fallback title. -/
def untitled : List Char := "Untitled".toList

/-! ## clean_title -/

/-- One of the separator characters `[-|–—]` of `clean_title`. -/
def isSepChar (c : Char) : Bool :=
  c = '-' || c = '|' || c = '–' || c = '—'

/-- Does the pattern `\s*[-|–—]\s+` match at the head of the string?
(`\s*` consumes leading whitespace; with backtracking the pattern matches
here iff some whitespace prefix is followed by a separator character and
at least one whitespace character.) -/
def sepMatchAt : List Char → Bool
  | [] => false
  | c :: cs =>
    if isSepChar c then
      match cs with
      | d :: _ => pyIsSpace d
      | [] => false
    else if pyIsSpace c then sepMatchAt cs
    else false

/-- `re.split(r'\s*[-|–—]\s+', title)[0]`: the prefix strictly before the
leftmost match of the separator pattern (the whole string when there is
no match). -/
def beforeSep : List Char → List Char
  | [] => []
  | c :: cs => if sepMatchAt (c :: cs) then [] else c :: beforeSep cs

/-- Does the separator pattern match anywhere in the string? -/
def hasSep : List Char → Bool
  | [] => false
  | c :: cs => sepMatchAt (c :: cs) || hasSep cs

/-- `clean_title` from the source: split on the separator pattern, keep the
first piece, strip it, and fall back to `"Untitled"` when empty. -/
def clean_title (t : List Char) : List Char :=
  let s := strip (beforeSep t)
  if s = [] then untitled else s

/-! ## html.escape / html.unescape -/

/-- `html.escape` (with its default quoting) on a single character.  The
stdlib performs five sequential `str.replace` calls; since no replacement
string contains a character replaced later, that composition is this
character-wise map. -/
def escChar (c : Char) : List Char :=
  if c = '&' then "&amp;".toList
  else if c = '<' then "&lt;".toList
  else if c = '>' then "&gt;".toList
  else if c = '"' then "&quot;".toList
  else if c = '\'' then "&#x27;".toList
  else [c]

/-- `html.escape(s, quote=True)` over a string. -/
def htmlEscape : List Char → List Char
  | [] => []
  | c :: cs => escChar c ++ htmlEscape cs

/-- Models the stdlib call `html.unescape` restricted to the five basic
character references; the full named-entity table lives in the Python
standard library, outside this repository, and no claim depends on which
references are decoded. -/
def htmlUnescape : List Char → List Char
  | '&' :: 'a' :: 'm' :: 'p' :: ';' :: cs => '&' :: htmlUnescape cs
  | '&' :: 'l' :: 't' :: ';' :: cs => '<' :: htmlUnescape cs
  | '&' :: 'g' :: 't' :: ';' :: cs => '>' :: htmlUnescape cs
  | '&' :: 'q' :: 'u' :: 'o' :: 't' :: ';' :: cs => '"' :: htmlUnescape cs
  | '&' :: '#' :: 'x' :: '2' :: '7' :: ';' :: cs => '\'' :: htmlUnescape cs
  | c :: cs => c :: htmlUnescape cs
  | [] => []

/-! ## extract_title -/

/-- Attempt of `<title>([^<]+)</title>` (IGNORECASE) at the head of `s`,
returning the group: the literal tag `<title>` (no attributes), then one
or more non-`'<'` characters, then `</title>`. -/
def matchTitleAt (s : List Char) : Option (List Char) :=
  if startsWithCI "<title>".toList s then
    let after := s.drop 7
    let content := after.takeWhile fun c => c != '<'
    let rest := after.dropWhile fun c => c != '<'
    if content ≠ [] ∧ startsWithCI "</title>".toList rest then some content
    else none
  else none

/-- `re.search` of the title pattern: first position where it matches. -/
def findTitle : List Char → Option (List Char)
  | [] => none
  | c :: cs =>
    match matchTitleAt (c :: cs) with
    | some r => some r
    | none => findTitle cs

/-- Does `s` begin with `</h1>` (IGNORECASE)? -/
def isCloseH1 : List Char → Bool
  | '<' :: '/' :: c :: '1' :: '>' :: _ => c = 'h' || c = 'H'
  | _ => false

/-- Split around the first occurrence of `</h1>` (IGNORECASE): the
characters before it and the rest after it.  This realizes the lazy
`(.*?)</h1>` with `re.DOTALL`: the shortest content ending at the first
closing tag. -/
def splitAtCloseH1 : List Char → Option (List Char × List Char)
  | [] => none
  | c :: cs =>
    if isCloseH1 (c :: cs) then some ([], (c :: cs).drop 5)
    else (splitAtCloseH1 cs).map fun pr => (c :: pr.1, pr.2)

/-- Attempt of `<h1[^>]*>(.*?)</h1>` (DOTALL, IGNORECASE) at the head of
`s`, returning the group. -/
def matchH1At (s : List Char) : Option (List Char) :=
  match s with
  | c0 :: c1 :: c2 :: rest =>
    if c0 = '<' ∧ (c1 = 'h' ∨ c1 = 'H') ∧ c2 = '1' then
      match upToGt rest with
      | some ar => (splitAtCloseH1 ar.2).map fun pr => pr.1
      | none => none
    else none
  | _ => none

/-- `re.search` of the `<h1>` pattern: first position where it matches. -/
def findH1 : List Char → Option (List Char)
  | [] => none
  | c :: cs =>
    match matchH1At (c :: cs) with
    | some r => some r
    | none => findH1 cs

/-- Fuel for the tag-removing rewrite `re.sub(r'<[^>]+>', '', s)`. -/
def stripTagsF : Nat → List Char → List Char
  | _, [] => []
  | 0, s => s
  | n + 1, c :: cs =>
    if c = '<' then
      match upToGt cs with
      | some ar => if ar.1 = [] then c :: stripTagsF n cs else stripTagsF n ar.2
      | none => c :: stripTagsF n cs
    else c :: stripTagsF n cs

/-- `re.sub(r'<[^>]+>', '', s)`: delete every complete tag that has at
least one character between the brackets. -/
def stripTags (s : List Char) : List Char := stripTagsF s.length s

/-- The `<h1>` fallback of `extract_title`: strip nested tags from the
first `<h1>` element's content and trim it, else `"Untitled"`. -/
def h1Title (t : List Char) : List Char :=
  match findH1 t with
  | some c => strip (stripTags c)
  | none => untitled

/-- `extract_title` from the source: `<title>` content (unescaped,
stripped, cleaned) when that is truthy and not `"Untitled"`, else the
first `<h1>` content (tags stripped, trimmed), else `"Untitled"`. -/
def extract_title (t : List Char) : List Char :=
  match findTitle t with
  | some c =>
    let ti := clean_title (strip (htmlUnescape c))
    if ti ≠ [] ∧ ti ≠ untitled then ti else h1Title t
  | none => h1Title t

/-! ## shift_headings -/

/-- The digit character of a heading level. -/
def levelChar (n : Nat) : Char := Char.ofNat (48 + n)

/-- `h([1-6])([^>]*)>` after the optional slash: a heading-tag body
returning the numeric level, the verbatim attribute text (the `[^>]*`
group) and the rest after `'>'`. -/
def matchOpen : List Char → Option (Nat × List Char × List Char)
  | [] => none
  | [_] => none
  | c :: d :: rest =>
    if (c = 'h' ∨ c = 'H') ∧ ('1' ≤ d ∧ d ≤ '6') then
      (upToGt rest).map fun ar => (d.toNat - 48, ar.1, ar.2)
    else none

/-- Attempt of `<(/?)h([1-6])([^>]*)>` (IGNORECASE) at the head of `s`:
the closing flag, the level, the attribute text and the rest. -/
def matchHeading (s : List Char) : Option (Bool × Nat × List Char × List Char) :=
  match s with
  | [] => none
  | c :: rest =>
    if c = '<' then
      if rest.head? = some '/' then
        (matchOpen rest.tail).map fun x => (true, x.1, x.2.1, x.2.2)
      else
        (matchOpen rest).map fun x => (false, x.1, x.2.1, x.2.2)
    else none

/-- The replacement emitted for a matched heading tag: the exercised
lambda of the source, `<{slash}h{min(level+1,6)}{attrs-if-opening}>`. -/
def headingRepl (isClose : Bool) (l : Nat) (attrs : List Char) : List Char :=
  if isClose then ['<', '/', 'h', levelChar (min (l + 1) 6), '>']
  else '<' :: 'h' :: levelChar (min (l + 1) 6) :: (attrs ++ ['>'])

/-- Fuel version of the `re.sub` scan of `shift_headings`. -/
def shiftF : Nat → List Char → List Char
  | _, [] => []
  | 0, s => s
  | n + 1, c :: cs =>
    match matchHeading (c :: cs) with
    | some (b, l, a, r) => headingRepl b l a ++ shiftF n r
    | none => c :: shiftF n cs

/-- `shift_headings` from the source: demote every heading tag by one
level, clamped at 6. -/
def shift_headings (s : List Char) : List Char := shiftF s.length s

/-- The recognized heading tags of a document, in scan order, each as its
closing flag and level.  This is the tokenization the rewriting pattern
itself produces (leftmost match, advance one on failure). -/
def scanTagsF : Nat → List Char → List (Bool × Nat)
  | _, [] => []
  | 0, _ => []
  | n + 1, c :: cs =>
    match matchHeading (c :: cs) with
    | some (b, l, _, r) => (b, l) :: scanTagsF n r
    | none => scanTagsF n cs

/-- All recognized heading tags of a document (closing flag, level). -/
def scanTags (s : List Char) : List (Bool × Nat) := scanTagsF s.length s

/-- Fuel version of erasing every recognized heading tag, keeping the
characters outside the tags. -/
def eraseTagsF : Nat → List Char → List Char
  | _, [] => []
  | 0, s => s
  | n + 1, c :: cs =>
    match matchHeading (c :: cs) with
    | some (_, _, _, r) => eraseTagsF n r
    | none => c :: eraseTagsF n cs

/-- The characters of a document that lie outside every recognized
heading tag, in order. -/
def eraseTags (s : List Char) : List Char := eraseTagsF s.length s

/-! ## normalize -/

/-- Attempt of `(<body[^>]*>)` (IGNORECASE) at the head of `s`: the
verbatim matched tag text and the rest after it. -/
def matchBody : List Char → Option (List Char × List Char)
  | [] => none
  | [_] => none
  | [_, _] => none
  | [_, _, _] => none
  | [_, _, _, _] => none
  | c0 :: c1 :: c2 :: c3 :: c4 :: rest =>
    if c0 = '<' ∧ lowerAscii c1 = 'b' ∧ lowerAscii c2 = 'o' ∧
        lowerAscii c3 = 'd' ∧ lowerAscii c4 = 'y' then
      (upToGt rest).map fun ar =>
        (c0 :: c1 :: c2 :: c3 :: c4 :: (ar.1 ++ ['>']), ar.2)
    else none

/-- `re.search` of the body pattern followed by the insertion
`text[:pos] + '\n' + title_html + text[pos:]`; `none` when no body tag
exists. -/
def insertTitleAux (th : List Char) : List Char → Option (List Char)
  | [] => none
  | c :: cs =>
    match matchBody (c :: cs) with
    | some (tag, rest) => some (tag ++ '\n' :: (th ++ rest))
    | none => (insertTitleAux th cs).map fun r => c :: r

/-- `m.end()` of the first body-tag match: the position just after its
closing `'>'`. -/
def firstBodyEnd : List Char → Option Nat
  | [] => none
  | c :: cs =>
    match matchBody (c :: cs) with
    | some (tag, _) => some tag.length
    | none => (firstBodyEnd cs).map (· + 1)

/-- The inserted element `f'<h1>{html.escape(title)}</h1>\n'`. -/
def titleHtml (title : List Char) : List Char :=
  "<h1>".toList ++ htmlEscape title ++ "</h1>\n".toList

/-- The title chosen by `normalize`:
`clean_title(title_override) if title_override else extract_title(text)`
(Python truthiness: `None` and the empty string both fall through). -/
def resolveTitle (t : List Char) (titleOverride : Option (List Char)) : List Char :=
  match titleOverride with
  | some ov => if ov = [] then extract_title t else clean_title ov
  | none => extract_title t

/-- `normalize` from the source: resolve the title from the original
document, shift every heading down one level, and insert the new `<h1>`
element after the first `<body>` tag (prepend when there is none). -/
def normalize (t : List Char) (titleOverride : Option (List Char)) : List Char :=
  let th := titleHtml (resolveTitle t titleOverride)
  let s := shift_headings t
  match insertTitleAux th s with
  | some r => r
  | none => th ++ s



/-! ## Basic facts about the scanners -/

theorem upToGt_some : ∀ {m : List Char} {a r}, upToGt m = some (a, r) →
    m = a ++ '>' :: r ∧ '>' ∉ a := by
  intro m
  induction m with
  | nil => intro a r h; simp [upToGt] at h
  | cons c cs ih =>
    intro a r h
    rw [upToGt] at h
    split at h
    next hc =>
      subst hc
      simp only [Option.some.injEq, Prod.mk.injEq] at h
      obtain ⟨rfl, rfl⟩ := h
      simp
    next hc =>
      cases h' : upToGt cs with
      | none => rw [h'] at h; simp at h
      | some ar =>
        rw [h'] at h
        simp only [Option.map_some', Option.some.injEq, Prod.mk.injEq] at h
        obtain ⟨rfl, rfl⟩ := h
        obtain ⟨he, hn⟩ := ih h'
        constructor
        · simp [← he]
        · simp only [List.mem_cons, not_or]
          exact ⟨fun hgt => hc hgt.symm, hn⟩

theorem upToGt_none : ∀ {m : List Char}, upToGt m = none → '>' ∉ m := by
  intro m
  induction m with
  | nil => intro _; simp
  | cons c cs ih =>
    intro h
    rw [upToGt] at h
    split at h
    next => simp at h
    next hc =>
      cases h' : upToGt cs with
      | none =>
        simp only [List.mem_cons, not_or]
        exact ⟨fun hgt => hc hgt.symm, ih h'⟩
      | some ar => rw [h'] at h; simp at h

theorem upToGt_of : ∀ {a : List Char}, '>' ∉ a → ∀ r, upToGt (a ++ '>' :: r) = some (a, r) := by
  intro a
  induction a with
  | nil => intro _ r; simp [upToGt]
  | cons c cs ih =>
    intro h r
    have hc : ¬ c = '>' := by
      intro e; exact h (by simp [e])
    have hcs : '>' ∉ cs := fun hm => h (List.mem_cons_of_mem _ hm)
    have : (c :: cs) ++ '>' :: r = c :: (cs ++ '>' :: r) := rfl
    rw [this, upToGt, if_neg hc, ih hcs r]
    rfl

theorem upToGt_append_some {m a q : List Char} (h : upToGt m = some (a, q)) (x : List Char) :
    upToGt (m ++ x) = some (a, q ++ x) := by
  obtain ⟨he, hn⟩ := upToGt_some h
  subst he
  rw [List.append_assoc]
  exact upToGt_of hn (q ++ x)




theorem char_toNat_le_of_le {a b : Char} (h : a ≤ b) : a.toNat ≤ b.toNat :=
  UInt32.le_def.mp (Char.le_def.mp h)

/-- A character in the class `[1-6]` is one of the six digits. -/
theorem digit_cases {d : Char} (h1 : '1' ≤ d) (h2 : d ≤ '6') :
    d = '1' ∨ d = '2' ∨ d = '3' ∨ d = '4' ∨ d = '5' ∨ d = '6' := by
  have l1 : 49 ≤ d.toNat := char_toNat_le_of_le h1
  have l2 : d.toNat ≤ 54 := char_toNat_le_of_le h2
  have hn : d.toNat = 49 ∨ d.toNat = 50 ∨ d.toNat = 51 ∨ d.toNat = 52 ∨
      d.toNat = 53 ∨ d.toNat = 54 := by omega
  have hofn : Char.ofNat d.toNat = d := Char.ofNat_toNat d
  rcases hn with h | h | h | h | h | h <;>
    rw [← hofn, h] <;> simp [Char.ofNat]

theorem matchOpen_not_h {c : Char} (h : ¬ (c = 'h' ∨ c = 'H')) :
    ∀ x, matchOpen (c :: x) = none := by
  intro x
  cases x with
  | nil => rfl
  | cons d r =>
    show (if (c = 'h' ∨ c = 'H') ∧ ('1' ≤ d ∧ d ≤ '6') then
        (upToGt r).map fun ar => (d.toNat - 48, ar.1, ar.2) else none) = none
    rw [if_neg]
    exact fun hc => h hc.1

theorem matchOpen_not_digit {c d : Char} (h : ¬ ('1' ≤ d ∧ d ≤ '6')) (r : List Char) :
    matchOpen (c :: d :: r) = none := by
  show (if (c = 'h' ∨ c = 'H') ∧ ('1' ≤ d ∧ d ≤ '6') then
      (upToGt r).map fun ar => (d.toNat - 48, ar.1, ar.2) else none) = none
  rw [if_neg]
  exact fun hc => h hc.2

theorem matchOpen_some {x : List Char} {l : Nat} {a r : List Char}
    (h : matchOpen x = some (l, a, r)) :
    ∃ hd dg rest, x = hd :: dg :: rest ∧ (hd = 'h' ∨ hd = 'H') ∧
      ('1' ≤ dg ∧ dg ≤ '6') ∧ l = dg.toNat - 48 ∧ upToGt rest = some (a, r) := by
  match x with
  | [] => simp [matchOpen] at h
  | [c] => simp [matchOpen] at h
  | c :: d :: rest =>
    rw [show matchOpen (c :: d :: rest) = (if (c = 'h' ∨ c = 'H') ∧ ('1' ≤ d ∧ d ≤ '6') then
        (upToGt rest).map fun ar => (d.toNat - 48, ar.1, ar.2) else none) from rfl] at h
    split at h
    next hc =>
      cases hu : upToGt rest with
      | none => rw [hu] at h; simp at h
      | some ar =>
        rw [hu] at h
        simp only [Option.map_some', Option.some.injEq, Prod.mk.injEq] at h
        obtain ⟨rfl, rfl, rfl⟩ := h
        exact ⟨c, d, rest, rfl, hc.1, hc.2, rfl, hu⟩
    next => simp at h

theorem matchOpen_mk {hd dg : Char} (hh : hd = 'h' ∨ hd = 'H')
    (h1 : '1' ≤ dg) (h2 : dg ≤ '6') {a : List Char} (ha : '>' ∉ a) (r : List Char) :
    matchOpen (hd :: dg :: (a ++ '>' :: r)) = some (dg.toNat - 48, a, r) := by
  show (if (hd = 'h' ∨ hd = 'H') ∧ ('1' ≤ dg ∧ dg ≤ '6') then
      (upToGt (a ++ '>' :: r)).map fun ar => (dg.toNat - 48, ar.1, ar.2) else none) = _
  rw [if_pos ⟨hh, h1, h2⟩, upToGt_of ha r]
  rfl

theorem matchHeading_nil : matchHeading [] = none := rfl

theorem matchHeading_ne_lt {c : Char} (h : ¬ c = '<') (cs : List Char) :
    matchHeading (c :: cs) = none := by
  show (if c = '<' then _ else none) = none
  rw [if_neg h]

/-- Structure of a successful heading-tag match. -/
theorem matchHeading_some {s : List Char} {b : Bool} {l : Nat} {a r : List Char}
    (h : matchHeading s = some (b, l, a, r)) :
    ∃ hd dg, s = '<' :: ((if b then ['/'] else []) ++ hd :: dg :: (a ++ '>' :: r)) ∧
      (hd = 'h' ∨ hd = 'H') ∧ ('1' ≤ dg ∧ dg ≤ '6') ∧ l = dg.toNat - 48 ∧ '>' ∉ a := by
  cases s with
  | nil => simp [matchHeading] at h
  | cons c rest =>
    rw [show matchHeading (c :: rest) = (if c = '<' then
        (if rest.head? = some '/' then
          (matchOpen rest.tail).map fun x => (true, x.1, x.2.1, x.2.2)
        else
          (matchOpen rest).map fun x => (false, x.1, x.2.1, x.2.2))
        else none) from rfl] at h
    split at h
    next hc =>
      subst hc
      split at h
      next hs =>
        cases rest with
        | nil => simp at hs
        | cons r0 rtl =>
          simp only [List.head?_cons, Option.some.injEq] at hs
          subst hs
          cases hm : matchOpen rtl with
          | none => rw [show ('/' :: rtl).tail = rtl from rfl, hm] at h; simp at h
          | some v =>
            rw [show ('/' :: rtl).tail = rtl from rfl, hm] at h
            simp only [Option.map_some', Option.some.injEq, Prod.mk.injEq] at h
            obtain ⟨rfl, rfl, rfl, rfl⟩ := h
            obtain ⟨hd, dg, rest', hEq, hh, hdg, hl, hup⟩ := matchOpen_some hm
            obtain ⟨hre, hna⟩ := upToGt_some hup
            refine ⟨hd, dg, ?_, hh, hdg, hl, hna⟩
            simp [hEq, hre]
      next hs =>
        cases hm : matchOpen rest with
        | none => rw [hm] at h; simp at h
        | some v =>
          rw [hm] at h
          simp only [Option.map_some', Option.some.injEq, Prod.mk.injEq] at h
          obtain ⟨rfl, rfl, rfl, rfl⟩ := h
          obtain ⟨hd, dg, rest', hEq, hh, hdg, hl, hup⟩ := matchOpen_some hm
          obtain ⟨hre, hna⟩ := upToGt_some hup
          refine ⟨hd, dg, ?_, hh, hdg, hl, hna⟩
          simp [hEq, hre]
    next => simp at h

theorem matchHeading_mk_open {hd dg : Char} (hh : hd = 'h' ∨ hd = 'H')
    (h1 : '1' ≤ dg) (h2 : dg ≤ '6') {a : List Char} (ha : '>' ∉ a) (r : List Char) :
    matchHeading ('<' :: hd :: dg :: (a ++ '>' :: r)) = some (false, dg.toNat - 48, a, r) := by
  have hhd : ¬ ((hd :: dg :: (a ++ '>' :: r)).head? = some '/') := by
    simp only [List.head?_cons, Option.some.injEq]
    rcases hh with rfl | rfl <;> decide
  show (if ('<' : Char) = '<' then
      (if (hd :: dg :: (a ++ '>' :: r)).head? = some '/' then
        (matchOpen (hd :: dg :: (a ++ '>' :: r)).tail).map fun x => (true, x.1, x.2.1, x.2.2)
      else
        (matchOpen (hd :: dg :: (a ++ '>' :: r))).map fun x => (false, x.1, x.2.1, x.2.2))
      else none) = _
  rw [if_pos rfl, if_neg hhd, matchOpen_mk hh h1 h2 ha r]
  rfl

theorem matchHeading_mk_close {hd dg : Char} (hh : hd = 'h' ∨ hd = 'H')
    (h1 : '1' ≤ dg) (h2 : dg ≤ '6') {a : List Char} (ha : '>' ∉ a) (r : List Char) :
    matchHeading ('<' :: '/' :: hd :: dg :: (a ++ '>' :: r)) = some (true, dg.toNat - 48, a, r) := by
  show (if ('<' : Char) = '<' then
      (if ('/' :: hd :: dg :: (a ++ '>' :: r)).head? = some '/' then
        (matchOpen ('/' :: hd :: dg :: (a ++ '>' :: r)).tail).map fun x => (true, x.1, x.2.1, x.2.2)
      else
        (matchOpen ('/' :: hd :: dg :: (a ++ '>' :: r))).map fun x => (false, x.1, x.2.1, x.2.2))
      else none) = _
  rw [if_pos rfl,
    if_pos (show ('/' :: hd :: dg :: (a ++ '>' :: r)).head? = some '/' from rfl),
    show ('/' :: hd :: dg :: (a ++ '>' :: r)).tail
      = hd :: dg :: (a ++ '>' :: r) from rfl, matchOpen_mk hh h1 h2 ha r]
  rfl




theorem lastMem {l : List Char} {a : Char} (h : l.getLast? = some a) : a ∈ l := by
  have hm : a ∈ l.getLast? := h
  obtain ⟨hne, heq⟩ := List.mem_getLast?_eq_getLast hm
  rw [heq]
  exact List.getLast_mem hne

/-- The remainder of a heading-tag match is strictly shorter. -/
theorem matchHeading_rest_length {s : List Char} {b : Bool} {l : Nat} {a r : List Char}
    (h : matchHeading s = some (b, l, a, r)) : r.length < s.length := by
  obtain ⟨hd, dg, hEq, -, -, -, -⟩ := matchHeading_some h
  subst hEq
  cases b <;> simp [List.length_append] <;> omega

/-- Levels recognized by the pattern lie in `[1,6]`. -/
theorem matchHeading_level {s : List Char} {b : Bool} {l : Nat} {a r : List Char}
    (h : matchHeading s = some (b, l, a, r)) : 1 ≤ l ∧ l ≤ 6 := by
  obtain ⟨hd, dg, -, -, hdg, hl, -⟩ := matchHeading_some h
  subst hl
  rcases digit_cases hdg.1 hdg.2 with rfl | rfl | rfl | rfl | rfl | rfl <;> simp

theorem matchHeading_gt_mem {s : List Char} {b : Bool} {l : Nat} {a r : List Char}
    (h : matchHeading s = some (b, l, a, r)) : '>' ∈ s := by
  obtain ⟨hd, dg, hEq, -, -, -, -⟩ := matchHeading_some h
  subst hEq
  cases b <;> simp

/-- A heading-tag match survives appending text on the right. -/
theorem matchHeading_append_some {s : List Char} {b : Bool} {l : Nat} {a r : List Char}
    (h : matchHeading s = some (b, l, a, r)) (x : List Char) :
    matchHeading (s ++ x) = some (b, l, a, r ++ x) := by
  obtain ⟨hd, dg, hEq, hh, hdg, hl, hna⟩ := matchHeading_some h
  subst hEq hl
  cases b with
  | false =>
    have heq : '<' :: ((if (false : Bool) = true then ['/'] else []) ++
        hd :: dg :: (a ++ '>' :: r)) ++ x
        = '<' :: hd :: dg :: (a ++ '>' :: (r ++ x)) := by simp
    rw [heq]
    exact matchHeading_mk_open hh hdg.1 hdg.2 hna (r ++ x)
  | true =>
    have heq : '<' :: ((if (true : Bool) = true then ['/'] else []) ++
        hd :: dg :: (a ++ '>' :: r)) ++ x
        = '<' :: '/' :: hd :: dg :: (a ++ '>' :: (r ++ x)) := by simp
    rw [heq]
    exact matchHeading_mk_close hh hdg.1 hdg.2 hna (r ++ x)

theorem matchOpen_append_none {m : List Char} (hlast : m.getLast? = some '>')
    (hm : matchOpen m = none) (x : List Char) : matchOpen (m ++ x) = none := by
  match m, hlast with
  | [c], hlast =>
    have hc : c = '>' := by
      simpa using hlast
    subst hc
    exact matchOpen_not_h (by decide) x
  | c :: d :: m', hlast =>
    by_cases hcd : (c = 'h' ∨ c = 'H') ∧ ('1' ≤ d ∧ d ≤ '6')
    · exfalso
      rw [show matchOpen (c :: d :: m') = (if (c = 'h' ∨ c = 'H') ∧ ('1' ≤ d ∧ d ≤ '6') then
          (upToGt m').map fun ar => (d.toNat - 48, ar.1, ar.2) else none) from rfl,
        if_pos hcd] at hm
      have hup : upToGt m' = none := Option.map_eq_none'.mp hm
      have hnogt : '>' ∉ m' := upToGt_none hup
      cases m' with
      | nil =>
        have : d = '>' := by simpa using hlast
        rcases digit_cases hcd.2.1 hcd.2.2 with rfl | rfl | rfl | rfl | rfl | rfl <;> simp at this
      | cons e m'' =>
        rw [List.getLast?_cons_cons, List.getLast?_cons_cons] at hlast
        exact hnogt (lastMem hlast)
    · rcases Decidable.not_and_iff_or_not.mp hcd with hc | hd
      · have : (c :: d :: m') ++ x = c :: (d :: (m' ++ x)) := rfl
        rw [this]
        exact matchOpen_not_h hc _
      · exact matchOpen_not_digit hd _

/-- A failed heading match at the head of a `'>'`-terminated block stays
failed when text is appended after the block. -/
theorem matchHeading_append_none {s : List Char} (hlast : s.getLast? = some '>')
    (hm : matchHeading s = none) (x : List Char) : matchHeading (s ++ x) = none := by
  match s, hlast with
  | [c], hlast =>
    have hc : c = '>' := by simpa using hlast
    subst hc
    exact matchHeading_ne_lt (by decide) x
  | c :: c1 :: s', hlast =>
    by_cases hc : c = '<'
    · subst hc
      rw [List.getLast?_cons_cons] at hlast
      by_cases h1 : c1 = '/'
      · subst h1
        have hmo : matchOpen s' = none := by
          rw [show matchHeading ('<' :: '/' :: s') = (matchOpen s').map
              (fun v => (true, v.1, v.2.1, v.2.2)) from rfl] at hm
          exact Option.map_eq_none'.mp hm
        have hs' : s'.getLast? = some '>' := by
          cases s' with
          | nil => simp at hlast
          | cons e s'' => rwa [List.getLast?_cons_cons] at hlast
        rw [show ('<' :: '/' :: s') ++ x = '<' :: '/' :: (s' ++ x) from rfl,
          show matchHeading ('<' :: '/' :: (s' ++ x)) = (matchOpen (s' ++ x)).map
            (fun v => (true, v.1, v.2.1, v.2.2)) from rfl,
          matchOpen_append_none hs' hmo x]
        rfl
      · have hh : ¬ ((c1 :: s').head? = some '/') := by
          simp only [List.head?_cons, Option.some.injEq]
          exact h1
        have hmo : matchOpen (c1 :: s') = none := by
          rw [show matchHeading ('<' :: c1 :: s') = (if (c1 :: s').head? = some '/' then
              (matchOpen (c1 :: s').tail).map fun v => (true, v.1, v.2.1, v.2.2)
            else (matchOpen (c1 :: s')).map fun v => (false, v.1, v.2.1, v.2.2)) from rfl,
            if_neg hh] at hm
          exact Option.map_eq_none'.mp hm
        have hh2 : ¬ ((c1 :: (s' ++ x)).head? = some '/') := by
          simp only [List.head?_cons, Option.some.injEq]
          exact h1
        rw [show ('<' :: c1 :: s') ++ x = '<' :: c1 :: (s' ++ x) from rfl,
          show matchHeading ('<' :: c1 :: (s' ++ x)) = (if (c1 :: (s' ++ x)).head? = some '/' then
              (matchOpen (c1 :: (s' ++ x)).tail).map fun v => (true, v.1, v.2.1, v.2.2)
            else (matchOpen (c1 :: (s' ++ x))).map fun v => (false, v.1, v.2.1, v.2.2)) from rfl,
          if_neg hh2]
        have hlast2 : (c1 :: s').getLast? = some '>' := hlast
        rw [show c1 :: (s' ++ x) = (c1 :: s') ++ x from rfl,
          matchOpen_append_none hlast2 hmo x]
        rfl
    · exact matchHeading_ne_lt hc _




/-! ## Equations for the fuelled scanners -/

theorem shiftF_nil : ∀ n, shiftF n [] = [] := by
  intro n; cases n <;> rfl

theorem shiftF_congr : ∀ n m (s : List Char), s.length ≤ n → s.length ≤ m →
    shiftF n s = shiftF m s := by
  intro n
  induction n with
  | zero =>
    intro m s h1 h2
    cases s with
    | nil => rw [shiftF_nil, shiftF_nil]
    | cons c cs => simp at h1
  | succ n ih =>
    intro m s h1 h2
    cases s with
    | nil => rw [shiftF_nil, shiftF_nil]
    | cons c cs =>
      cases m with
      | zero => simp at h2
      | succ m =>
        show (match matchHeading (c :: cs) with
            | some (b, l, a, r) => headingRepl b l a ++ shiftF n r
            | none => c :: shiftF n cs) =
          (match matchHeading (c :: cs) with
            | some (b, l, a, r) => headingRepl b l a ++ shiftF m r
            | none => c :: shiftF m cs)
        cases hm : matchHeading (c :: cs) with
        | some v =>
          obtain ⟨b, l, a, r⟩ := v
          show headingRepl b l a ++ shiftF n r = headingRepl b l a ++ shiftF m r
          have hr : r.length < (c :: cs).length := matchHeading_rest_length hm
          simp only [List.length_cons] at h1 h2 hr
          rw [ih m r (by omega) (by omega)]
        | none =>
          show c :: shiftF n cs = c :: shiftF m cs
          simp only [List.length_cons] at h1 h2
          rw [ih m cs (by omega) (by omega)]

theorem shift_headings_nil : shift_headings [] = [] := rfl

theorem shift_cons_some {c : Char} {cs : List Char} {b : Bool} {l : Nat} {a r : List Char}
    (hm : matchHeading (c :: cs) = some (b, l, a, r)) :
    shift_headings (c :: cs) = headingRepl b l a ++ shift_headings r := by
  have hr : r.length < (c :: cs).length := matchHeading_rest_length hm
  show (match matchHeading (c :: cs) with
      | some (b, l, a, r) => headingRepl b l a ++ shiftF cs.length r
      | none => c :: shiftF cs.length cs) = _
  rw [hm]
  show headingRepl b l a ++ shiftF cs.length r = _
  unfold shift_headings
  simp only [List.length_cons] at hr
  rw [shiftF_congr cs.length r.length r (by omega) le_rfl]

theorem shift_cons_none {c : Char} {cs : List Char}
    (hm : matchHeading (c :: cs) = none) :
    shift_headings (c :: cs) = c :: shift_headings cs := by
  show (match matchHeading (c :: cs) with
      | some (b, l, a, r) => headingRepl b l a ++ shiftF cs.length r
      | none => c :: shiftF cs.length cs) = _
  rw [hm]
  rfl

theorem scanTagsF_nil : ∀ n, scanTagsF n [] = [] := by
  intro n; cases n <;> rfl

theorem scanTagsF_congr : ∀ n m (s : List Char), s.length ≤ n → s.length ≤ m →
    scanTagsF n s = scanTagsF m s := by
  intro n
  induction n with
  | zero =>
    intro m s h1 h2
    cases s with
    | nil => rw [scanTagsF_nil, scanTagsF_nil]
    | cons c cs => simp at h1
  | succ n ih =>
    intro m s h1 h2
    cases s with
    | nil => rw [scanTagsF_nil, scanTagsF_nil]
    | cons c cs =>
      cases m with
      | zero => simp at h2
      | succ m =>
        show (match matchHeading (c :: cs) with
            | some (b, l, _, r) => (b, l) :: scanTagsF n r
            | none => scanTagsF n cs) =
          (match matchHeading (c :: cs) with
            | some (b, l, _, r) => (b, l) :: scanTagsF m r
            | none => scanTagsF m cs)
        cases hm : matchHeading (c :: cs) with
        | some v =>
          obtain ⟨b, l, a, r⟩ := v
          show (b, l) :: scanTagsF n r = (b, l) :: scanTagsF m r
          have hr : r.length < (c :: cs).length := matchHeading_rest_length hm
          simp only [List.length_cons] at h1 h2 hr
          rw [ih m r (by omega) (by omega)]
        | none =>
          show scanTagsF n cs = scanTagsF m cs
          simp only [List.length_cons] at h1 h2
          rw [ih m cs (by omega) (by omega)]

theorem scanTags_nil : scanTags [] = [] := rfl

theorem scanTags_cons_some {c : Char} {cs : List Char} {b : Bool} {l : Nat} {a r : List Char}
    (hm : matchHeading (c :: cs) = some (b, l, a, r)) :
    scanTags (c :: cs) = (b, l) :: scanTags r := by
  have hr : r.length < (c :: cs).length := matchHeading_rest_length hm
  show (match matchHeading (c :: cs) with
      | some (b, l, _, r) => (b, l) :: scanTagsF cs.length r
      | none => scanTagsF cs.length cs) = _
  rw [hm]
  show (b, l) :: scanTagsF cs.length r = _
  unfold scanTags
  simp only [List.length_cons] at hr
  rw [scanTagsF_congr cs.length r.length r (by omega) le_rfl]

theorem scanTags_cons_none {c : Char} {cs : List Char}
    (hm : matchHeading (c :: cs) = none) :
    scanTags (c :: cs) = scanTags cs := by
  show (match matchHeading (c :: cs) with
      | some (b, l, _, r) => (b, l) :: scanTagsF cs.length r
      | none => scanTagsF cs.length cs) = _
  rw [hm]
  rfl

theorem eraseTagsF_nil : ∀ n, eraseTagsF n [] = [] := by
  intro n; cases n <;> rfl

theorem eraseTagsF_congr : ∀ n m (s : List Char), s.length ≤ n → s.length ≤ m →
    eraseTagsF n s = eraseTagsF m s := by
  intro n
  induction n with
  | zero =>
    intro m s h1 h2
    cases s with
    | nil => rw [eraseTagsF_nil, eraseTagsF_nil]
    | cons c cs => simp at h1
  | succ n ih =>
    intro m s h1 h2
    cases s with
    | nil => rw [eraseTagsF_nil, eraseTagsF_nil]
    | cons c cs =>
      cases m with
      | zero => simp at h2
      | succ m =>
        show (match matchHeading (c :: cs) with
            | some (_, _, _, r) => eraseTagsF n r
            | none => c :: eraseTagsF n cs) =
          (match matchHeading (c :: cs) with
            | some (_, _, _, r) => eraseTagsF m r
            | none => c :: eraseTagsF m cs)
        cases hm : matchHeading (c :: cs) with
        | some v =>
          obtain ⟨b, l, a, r⟩ := v
          show eraseTagsF n r = eraseTagsF m r
          have hr : r.length < (c :: cs).length := matchHeading_rest_length hm
          simp only [List.length_cons] at h1 h2 hr
          rw [ih m r (by omega) (by omega)]
        | none =>
          show c :: eraseTagsF n cs = c :: eraseTagsF m cs
          simp only [List.length_cons] at h1 h2
          rw [ih m cs (by omega) (by omega)]

theorem eraseTags_nil : eraseTags [] = [] := rfl

theorem eraseTags_cons_some {c : Char} {cs : List Char} {b : Bool} {l : Nat} {a r : List Char}
    (hm : matchHeading (c :: cs) = some (b, l, a, r)) :
    eraseTags (c :: cs) = eraseTags r := by
  have hr : r.length < (c :: cs).length := matchHeading_rest_length hm
  show (match matchHeading (c :: cs) with
      | some (_, _, _, r) => eraseTagsF cs.length r
      | none => c :: eraseTagsF cs.length cs) = _
  rw [hm]
  show eraseTagsF cs.length r = _
  unfold eraseTags
  simp only [List.length_cons] at hr
  rw [eraseTagsF_congr cs.length r.length r (by omega) le_rfl]

theorem eraseTags_cons_none {c : Char} {cs : List Char}
    (hm : matchHeading (c :: cs) = none) :
    eraseTags (c :: cs) = c :: eraseTags cs := by
  show (match matchHeading (c :: cs) with
      | some (_, _, _, r) => eraseTagsF cs.length r
      | none => c :: eraseTagsF cs.length cs) = _
  rw [hm]
  rfl




/-! ## Stability of the gap positions of the shift rewrite -/

theorem headingRepl_cons (b : Bool) (l : Nat) (a X : List Char) :
    ∃ T, headingRepl b l a ++ X = '<' :: T := by
  cases b <;> exact ⟨_, rfl⟩

theorem matchHeading_lt (X : List Char) : matchHeading ('<' :: X) =
    (if X.head? = some '/' then
      (matchOpen X.tail).map fun v => (true, v.1, v.2.1, v.2.2)
    else (matchOpen X).map fun v => (false, v.1, v.2.1, v.2.2)) := by
  show (if ('<' : Char) = '<' then _ else none) = _
  rw [if_pos rfl]
  rfl

/-- Shifting does not change the first character of a document. -/
theorem shift_head? (s : List Char) : (shift_headings s).head? = s.head? := by
  cases s with
  | nil => rfl
  | cons c cs =>
    cases hm : matchHeading (c :: cs) with
    | some v =>
      obtain ⟨b, l, a, r⟩ := v
      rw [shift_cons_some hm]
      obtain ⟨hd, dg, hEq, -, -, -, -⟩ := matchHeading_some hm
      obtain ⟨T, hT⟩ := headingRepl_cons b l a (shift_headings r)
      rw [hT]
      have : c = '<' := by
        have := congrArg List.head? hEq
        simpa using this
      rw [this]
      rfl
    | none => rw [shift_cons_none hm]; rfl

/-- A document with no `'>'` has no heading-tag match anywhere, so the
shift leaves it unchanged. -/
theorem no_gt_shift : ∀ (s : List Char), '>' ∉ s → shift_headings s = s := by
  intro s
  induction s with
  | nil => intro _; rfl
  | cons c cs ih =>
    intro h
    cases hm : matchHeading (c :: cs) with
    | some v =>
      obtain ⟨b, l, a, r⟩ := v
      exact absurd (matchHeading_gt_mem hm) h
    | none =>
      rw [shift_cons_none hm, ih fun hx => h (List.mem_cons_of_mem _ hx)]

/-- An open-tag-body match that fails keeps failing on the shifted text. -/
theorem matchOpen_shift_cons_none {c : Char} {cs : List Char}
    (h : matchOpen (c :: cs) = none) :
    matchOpen (c :: shift_headings cs) = none := by
  by_cases hch : c = 'h' ∨ c = 'H'
  · cases cs with
    | nil => exact h
    | cons d rest =>
      cases hm : matchHeading (d :: rest) with
      | some v =>
        obtain ⟨b, l, a, r⟩ := v
        rw [shift_cons_some hm]
        obtain ⟨T, hT⟩ := headingRepl_cons b l a (shift_headings r)
        rw [hT]
        exact matchOpen_not_digit (by decide) T
      | none =>
        rw [shift_cons_none hm]
        by_cases hd : '1' ≤ d ∧ d ≤ '6'
        · have hup : upToGt rest = none := by
            rw [show matchOpen (c :: d :: rest) =
                (if (c = 'h' ∨ c = 'H') ∧ ('1' ≤ d ∧ d ≤ '6') then
                  (upToGt rest).map fun ar => (d.toNat - 48, ar.1, ar.2)
                else none) from rfl, if_pos ⟨hch, hd⟩] at h
            exact Option.map_eq_none'.mp h
          have hnogt : '>' ∉ rest := upToGt_none hup
          rw [no_gt_shift rest hnogt]
          exact h
        · exact matchOpen_not_digit hd _
  · cases hs : shift_headings cs with
    | nil => exact matchOpen_not_h hch []
    | cons e T => exact matchOpen_not_h hch (e :: T)

theorem matchOpen_shift_none {s : List Char} (h : matchOpen s = none) :
    matchOpen (shift_headings s) = none := by
  cases s with
  | nil => rfl
  | cons c cs =>
    cases hm : matchHeading (c :: cs) with
    | some v =>
      obtain ⟨b, l, a, r⟩ := v
      rw [shift_cons_some hm]
      obtain ⟨T, hT⟩ := headingRepl_cons b l a (shift_headings r)
      rw [hT]
      exact matchOpen_not_h (by decide) T
    | none =>
      rw [shift_cons_none hm]
      exact matchOpen_shift_cons_none h

/-- Gap stability: where no heading tag was recognized, none is
recognized after the shift rewrite either. -/
theorem matchHeading_shift_none {cs : List Char}
    (hm : matchHeading ('<' :: cs) = none) :
    matchHeading ('<' :: shift_headings cs) = none := by
  rw [matchHeading_lt] at hm ⊢
  cases cs with
  | nil => exact hm
  | cons d rest =>
    by_cases hd : d = '/'
    · subst hd
      rw [if_pos (show ('/' :: rest).head? = some '/' from rfl)] at hm
      have hmo : matchOpen rest = none := Option.map_eq_none'.mp hm
      have hnone : matchHeading ('/' :: rest) = none := matchHeading_ne_lt (by decide) rest
      rw [shift_cons_none hnone,
        if_pos (show ('/' :: shift_headings rest).head? = some '/' from rfl),
        show ('/' :: shift_headings rest).tail = shift_headings rest from rfl,
        matchOpen_shift_none hmo]
      rfl
    · have hif : ¬ ((d :: rest).head? = some '/') := by
        simp only [List.head?_cons, Option.some.injEq]
        exact hd
      rw [if_neg hif] at hm
      have hmo : matchOpen (d :: rest) = none := Option.map_eq_none'.mp hm
      cases hm2 : matchHeading (d :: rest) with
      | some v =>
        obtain ⟨b, l, a, r⟩ := v
        rw [shift_cons_some hm2]
        obtain ⟨T, hT⟩ := headingRepl_cons b l a (shift_headings r)
        rw [hT]
        have hif2 : ¬ (('<' :: T).head? = some '/') := by
          simp only [List.head?_cons, Option.some.injEq]
          decide
        rw [if_neg hif2]
        cases T with
        | nil => rfl
        | cons e T' =>
          rw [matchOpen_not_h (by decide) (e :: T')]
          rfl
      | none =>
        rw [shift_cons_none hm2]
        have hif2 : ¬ ((d :: shift_headings rest).head? = some '/') := by
          simp only [List.head?_cons, Option.some.injEq]
          exact hd
        rw [if_neg hif2, matchOpen_shift_cons_none hmo]
        rfl




/-! ## Rescanning the shifted document -/

theorem levelChar_spec {n : Nat} (h1 : 1 ≤ n) (h2 : n ≤ 6) :
    ('1' ≤ levelChar n ∧ levelChar n ≤ '6') ∧ (levelChar n).toNat - 48 = n := by
  interval_cases n <;> exact ⟨⟨by decide, by decide⟩, by decide⟩

/-- The replacement emitted for a heading tag is itself recognized, at the
demoted level, and consumes exactly the replacement text. -/
theorem matchHeading_repl {b : Bool} {l : Nat} {a : List Char}
    (ha : '>' ∉ a) (h1 : 1 ≤ l) (h2 : l ≤ 6) (X : List Char) :
    matchHeading (headingRepl b l a ++ X) =
      some (b, min (l + 1) 6, if b then [] else a, X) := by
  have hb1 : 1 ≤ min (l + 1) 6 := by omega
  have hb2 : min (l + 1) 6 ≤ 6 := by omega
  obtain ⟨⟨hc1, hc2⟩, htoNat⟩ := levelChar_spec hb1 hb2
  cases b with
  | false =>
    have hsh : headingRepl false l a ++ X =
        '<' :: 'h' :: levelChar (min (l + 1) 6) :: (a ++ '>' :: X) := by
      show ('<' :: 'h' :: levelChar (min (l + 1) 6) :: (a ++ ['>'])) ++ X = _
      simp
    rw [hsh]
    have hmk := matchHeading_mk_open (Or.inl rfl) hc1 hc2 ha X
    rw [htoNat] at hmk
    exact hmk
  | true =>
    have hsh : headingRepl true l a ++ X =
        '<' :: '/' :: 'h' :: levelChar (min (l + 1) 6) :: (([] : List Char) ++ '>' :: X) := rfl
    rw [hsh]
    have hmk := matchHeading_mk_close (Or.inl rfl) hc1 hc2
      (show '>' ∉ ([] : List Char) by simp) X
    rw [htoNat] at hmk
    exact hmk

theorem scanTags_repl {b : Bool} {l : Nat} {a : List Char}
    (ha : '>' ∉ a) (h1 : 1 ≤ l) (h2 : l ≤ 6) (X : List Char) :
    scanTags (headingRepl b l a ++ X) = (b, min (l + 1) 6) :: scanTags X := by
  obtain ⟨T, hT⟩ := headingRepl_cons b l a X
  have hm := @matchHeading_repl b l a ha h1 h2 X
  rw [hT] at hm ⊢
  exact scanTags_cons_some hm

theorem eraseTags_repl {b : Bool} {l : Nat} {a : List Char}
    (ha : '>' ∉ a) (h1 : 1 ≤ l) (h2 : l ≤ 6) (X : List Char) :
    eraseTags (headingRepl b l a ++ X) = eraseTags X := by
  obtain ⟨T, hT⟩ := headingRepl_cons b l a X
  have hm := @matchHeading_repl b l a ha h1 h2 X
  rw [hT] at hm ⊢
  exact eraseTags_cons_some hm

/-- Every heading tag recognized in a shifted document has level in
`[2,6]`. -/
theorem shift_levels : ∀ (t : List Char) p, p ∈ scanTags (shift_headings t) →
    2 ≤ p.2 ∧ p.2 ≤ 6 := by
  suffices H : ∀ n t, List.length t ≤ n → ∀ p, p ∈ scanTags (shift_headings t) →
      2 ≤ p.2 ∧ p.2 ≤ 6 by
    exact fun t => H t.length t le_rfl
  intro n
  induction n with
  | zero =>
    intro t h p hp
    cases t with
    | nil => simp [shift_headings_nil, scanTags_nil] at hp
    | cons c cs => simp at h
  | succ n ih =>
    intro t h p hp
    cases t with
    | nil => simp [shift_headings_nil, scanTags_nil] at hp
    | cons c cs =>
      cases hm : matchHeading (c :: cs) with
      | some v =>
        obtain ⟨b, l, a, r⟩ := v
        rw [shift_cons_some hm] at hp
        obtain ⟨hl1, hl2⟩ := matchHeading_level hm
        obtain ⟨hd, dg, hEq, hh, hdg, hlv, hna⟩ := matchHeading_some hm
        rw [scanTags_repl hna hl1 hl2 (shift_headings r)] at hp
        rcases List.mem_cons.mp hp with rfl | hp2
        · show 2 ≤ min (l + 1) 6 ∧ min (l + 1) 6 ≤ 6
          omega
        · have hr : r.length < (c :: cs).length := matchHeading_rest_length hm
          simp only [List.length_cons] at h hr
          exact ih r (by omega) p hp2
      | none =>
        rw [shift_cons_none hm] at hp
        simp only [List.length_cons] at h
        by_cases hc : c = '<'
        · subst hc
          rw [scanTags_cons_none (matchHeading_shift_none hm)] at hp
          exact ih cs (by omega) p hp
        · rw [scanTags_cons_none (matchHeading_ne_lt hc _)] at hp
          exact ih cs (by omega) p hp

/-- Shifting preserves, in order, every character outside the recognized
heading tags. -/
theorem eraseTags_shift : ∀ t : List Char,
    eraseTags (shift_headings t) = eraseTags t := by
  suffices H : ∀ n t, List.length t ≤ n →
      eraseTags (shift_headings t) = eraseTags t by
    exact fun t => H t.length t le_rfl
  intro n
  induction n with
  | zero =>
    intro t h
    cases t with
    | nil => rfl
    | cons c cs => simp at h
  | succ n ih =>
    intro t h
    cases t with
    | nil => rfl
    | cons c cs =>
      cases hm : matchHeading (c :: cs) with
      | some v =>
        obtain ⟨b, l, a, r⟩ := v
        rw [shift_cons_some hm]
        obtain ⟨hl1, hl2⟩ := matchHeading_level hm
        obtain ⟨hd, dg, hEq, hh, hdg, hlv, hna⟩ := matchHeading_some hm
        rw [eraseTags_repl hna hl1 hl2 (shift_headings r)]
        have hr : r.length < (c :: cs).length := matchHeading_rest_length hm
        simp only [List.length_cons] at h hr
        rw [ih r (by omega), eraseTags_cons_some hm]
      | none =>
        rw [shift_cons_none hm]
        simp only [List.length_cons] at h
        by_cases hc : c = '<'
        · subst hc
          rw [eraseTags_cons_none (matchHeading_shift_none hm), ih cs (by omega),
            eraseTags_cons_none hm]
        · rw [eraseTags_cons_none (matchHeading_ne_lt hc _), ih cs (by omega),
            eraseTags_cons_none hm]




/-! ## Scanning across concatenations -/

theorem scanTags_no_lt_append {l : List Char} (h : '<' ∉ l) (r : List Char) :
    scanTags (l ++ r) = scanTags r := by
  induction l with
  | nil => rfl
  | cons c l' ih =>
    have hc : ¬ c = '<' := fun e => h (by simp [e])
    have h' : '<' ∉ l' := fun hm => h (List.mem_cons_of_mem _ hm)
    show scanTags (c :: (l' ++ r)) = scanTags r
    rw [scanTags_cons_none (matchHeading_ne_lt hc _), ih h']

/-- Scanning distributes over a split placed right after a `'>'`. -/
theorem scanTags_append_gt : ∀ {l : List Char}, l.getLast? = some '>' →
    ∀ r, scanTags (l ++ r) = scanTags l ++ scanTags r := by
  suffices H : ∀ n (l : List Char), l.length ≤ n → l.getLast? = some '>' →
      ∀ r, scanTags (l ++ r) = scanTags l ++ scanTags r by
    exact fun {l} h r => H l.length l le_rfl h r
  intro n
  induction n with
  | zero =>
    intro l hlen hlast r
    cases l with
    | nil => simp at hlast
    | cons c l₁ => simp at hlen
  | succ n ih =>
    intro l hlen hlast r
    cases l with
    | nil => simp at hlast
    | cons c l₁ =>
      cases hm : matchHeading (c :: l₁) with
      | some v =>
        obtain ⟨b, lv, a, q⟩ := v
        have hm' : matchHeading (c :: (l₁ ++ r)) = some (b, lv, a, q ++ r) :=
          matchHeading_append_some hm r
        show scanTags (c :: (l₁ ++ r)) = scanTags (c :: l₁) ++ scanTags r
        rw [scanTags_cons_some hm', scanTags_cons_some hm, List.cons_append]
        cases hq : q with
        | nil => simp [scanTags_nil]
        | cons q0 q' =>
          subst hq
          obtain ⟨hd, dg, hEq, -, -, -, -⟩ := matchHeading_some hm
          have hsplit : c :: l₁ = ('<' :: ((if b = true then ['/'] else []) ++
              hd :: dg :: (a ++ ['>']))) ++ (q0 :: q') := by
            rw [hEq]; simp
          have hlast' : (q0 :: q').getLast? = some '>' := by
            rw [hsplit] at hlast
            rwa [List.getLast?_append_of_ne_nil _ (by simp)] at hlast
          have hqlen : (q0 :: q').length ≤ n := by
            have := matchHeading_rest_length hm
            simp only [List.length_cons] at this hlen ⊢
            omega
          rw [ih (q0 :: q') hqlen hlast' r]
      | none =>
        have hm' : matchHeading (c :: (l₁ ++ r)) = none := by
          have := matchHeading_append_none hlast hm r
          simpa using this
        show scanTags (c :: (l₁ ++ r)) = scanTags (c :: l₁) ++ scanTags r
        rw [scanTags_cons_none hm', scanTags_cons_none hm]
        cases l₁ with
        | nil =>
          have hc : c = '>' := by simpa using hlast
          simp [scanTags_nil]
        | cons d l₂ =>
          have hlast' : (d :: l₂).getLast? = some '>' := by
            rwa [List.getLast?_cons_cons] at hlast
          have hlen' : (d :: l₂).length ≤ n := by
            simp only [List.length_cons] at hlen ⊢
            omega
          rw [ih (d :: l₂) hlen' hlast' r]

theorem escChar_not_ltgt (c : Char) : '<' ∉ escChar c ∧ '>' ∉ escChar c := by
  unfold escChar
  by_cases h1 : c = '&'
  · rw [if_pos h1]; exact ⟨by decide, by decide⟩
  rw [if_neg h1]
  by_cases h2 : c = '<'
  · rw [if_pos h2]; exact ⟨by decide, by decide⟩
  rw [if_neg h2]
  by_cases h3 : c = '>'
  · rw [if_pos h3]; exact ⟨by decide, by decide⟩
  rw [if_neg h3]
  by_cases h4 : c = '"'
  · rw [if_pos h4]; exact ⟨by decide, by decide⟩
  rw [if_neg h4]
  by_cases h5 : c = '\''
  · rw [if_pos h5]; exact ⟨by decide, by decide⟩
  rw [if_neg h5]
  constructor
  · simp only [List.mem_singleton]
    exact fun e => h2 e.symm
  · simp only [List.mem_singleton]
    exact fun e => h3 e.symm

/-- The escaped title text contains no tag bracket. -/
theorem htmlEscape_not_ltgt (l : List Char) :
    '<' ∉ htmlEscape l ∧ '>' ∉ htmlEscape l := by
  induction l with
  | nil => exact ⟨by simp [htmlEscape], by simp [htmlEscape]⟩
  | cons c cs ih =>
    rw [show htmlEscape (c :: cs) = escChar c ++ htmlEscape cs from rfl]
    constructor
    · intro hm
      rcases List.mem_append.mp hm with h | h
      · exact (escChar_not_ltgt c).1 h
      · exact ih.1 h
    · intro hm
      rcases List.mem_append.mp hm with h | h
      · exact (escChar_not_ltgt c).2 h
      · exact ih.2 h

/-- Scanning the inserted title element yields exactly one opening and one
closing level-1 tag, then continues with the rest. -/
theorem scanTags_titleHtml (ttl X : List Char) :
    scanTags (titleHtml ttl ++ X) = (false, 1) :: (true, 1) :: scanTags X := by
  have h1n : ('1' : Char).toNat - 48 = 1 := rfl
  have hshape : titleHtml ttl ++ X = '<' :: 'h' :: '1' :: (([] : List Char) ++ '>' ::
      (htmlEscape ttl ++ ('<' :: '/' :: 'h' :: '1' ::
        (([] : List Char) ++ '>' :: ('\n' :: X))))) := by
    simp [titleHtml]
  have hop := @matchHeading_mk_open 'h' '1' (Or.inl rfl) (by decide) (by decide) []
    (show '>' ∉ ([] : List Char) by simp)
    (htmlEscape ttl ++ ('<' :: '/' :: 'h' :: '1' :: (([] : List Char) ++ '>' :: ('\n' :: X))))
  rw [h1n] at hop
  rw [hshape, scanTags_cons_some hop,
    scanTags_no_lt_append (htmlEscape_not_ltgt ttl).1]
  have hcl := @matchHeading_mk_close 'h' '1' (Or.inl rfl) (by decide) (by decide) []
    (show '>' ∉ ([] : List Char) by simp) ('\n' :: X)
  rw [h1n] at hcl
  rw [scanTags_cons_some hcl,
    scanTags_cons_none (matchHeading_ne_lt (by decide) X)]




/-! ## The body-tag search and the insertion -/

theorem matchBody_some : ∀ {s tag rest : List Char}, matchBody s = some (tag, rest) →
    s = tag ++ rest ∧ tag ≠ [] ∧ tag.getLast? = some '>' := by
  intro s tag rest h
  match s with
  | [] => simp [matchBody] at h
  | [_] => simp [matchBody] at h
  | [_, _] => simp [matchBody] at h
  | [_, _, _] => simp [matchBody] at h
  | [_, _, _, _] => simp [matchBody] at h
  | c0 :: c1 :: c2 :: c3 :: c4 :: rest0 =>
    rw [show matchBody (c0 :: c1 :: c2 :: c3 :: c4 :: rest0) =
        (if c0 = '<' ∧ lowerAscii c1 = 'b' ∧ lowerAscii c2 = 'o' ∧
            lowerAscii c3 = 'd' ∧ lowerAscii c4 = 'y' then
          (upToGt rest0).map fun ar =>
            (c0 :: c1 :: c2 :: c3 :: c4 :: (ar.1 ++ ['>']), ar.2)
        else none) from rfl] at h
    split at h
    next hcond =>
      cases hu : upToGt rest0 with
      | none => rw [hu] at h; simp at h
      | some ar =>
        rw [hu] at h
        simp only [Option.map_some', Option.some.injEq, Prod.mk.injEq] at h
        obtain ⟨rfl, rfl⟩ := h
        obtain ⟨hre, hna⟩ := upToGt_some hu
        refine ⟨?_, by simp, ?_⟩
        · rw [hre]; simp
        · rw [show c0 :: c1 :: c2 :: c3 :: c4 :: (ar.1 ++ ['>'])
            = (c0 :: c1 :: c2 :: c3 :: c4 :: ar.1) ++ ['>'] from by simp]
          exact List.getLast?_concat ..
    next => simp at h

/-- The insertion scan, characterized through the end position of the
first body-tag match. -/
theorem insertTitleAux_eq (th : List Char) : ∀ s : List Char, insertTitleAux th s =
    (firstBodyEnd s).map fun n => s.take n ++ '\n' :: (th ++ s.drop n) := by
  intro s
  induction s with
  | nil => rfl
  | cons c cs ih =>
    show (match matchBody (c :: cs) with
        | some (tag, rest) => some (tag ++ '\n' :: (th ++ rest))
        | none => (insertTitleAux th cs).map fun r => c :: r) =
      (match matchBody (c :: cs) with
        | some (tag, _) => some tag.length
        | none => (firstBodyEnd cs).map (· + 1)).map
          fun n => (c :: cs).take n ++ '\n' :: (th ++ (c :: cs).drop n)
    cases hb : matchBody (c :: cs) with
    | some pr =>
      obtain ⟨tag, rest⟩ := pr
      show some (tag ++ '\n' :: (th ++ rest)) =
        some ((c :: cs).take tag.length ++ '\n' :: (th ++ (c :: cs).drop tag.length))
      obtain ⟨hEq, hne, hlast⟩ := matchBody_some hb
      rw [hEq, List.take_left, List.drop_left]
    | none =>
      show ((insertTitleAux th cs).map fun r => c :: r) =
        ((firstBodyEnd cs).map (· + 1)).map
          fun n => (c :: cs).take n ++ '\n' :: (th ++ (c :: cs).drop n)
      rw [ih]
      cases hf : firstBodyEnd cs with
      | none => rfl
      | some n => rfl

/-- The end position of the first body match is positive, within the
document, and sits right after a `'>'`. -/
theorem firstBodyEnd_spec : ∀ {s : List Char} {n : Nat}, firstBodyEnd s = some n →
    1 ≤ n ∧ n ≤ s.length ∧ (s.take n).getLast? = some '>' := by
  intro s
  induction s with
  | nil => intro n h; simp [firstBodyEnd] at h
  | cons c cs ih =>
    intro n h
    rw [show firstBodyEnd (c :: cs) = (match matchBody (c :: cs) with
        | some (tag, _) => some tag.length
        | none => (firstBodyEnd cs).map (· + 1)) from rfl] at h
    cases hb : matchBody (c :: cs) with
    | some pr =>
      obtain ⟨tag, rest⟩ := pr
      rw [hb] at h
      simp only [Option.some.injEq] at h
      subst h
      obtain ⟨hEq, hne, hlast⟩ := matchBody_some hb
      refine ⟨?_, ?_, ?_⟩
      · cases tag with
        | nil => exact absurd rfl hne
        | cons t ts => simp
      · rw [hEq]; simp
      · rw [hEq, List.take_left]
        exact hlast
    | none =>
      rw [hb] at h
      cases hf : firstBodyEnd cs with
      | none => rw [hf] at h; simp at h
      | some m =>
        rw [hf] at h
        simp only [Option.map_some', Option.some.injEq] at h
        subst h
        obtain ⟨hm1, hm2, hm3⟩ := ih hf
        refine ⟨by omega, by simp; omega, ?_⟩
        rw [show (c :: cs).take (m + 1) = c :: cs.take m from rfl]
        have hne : cs.take m ≠ [] := by
          intro e
          rw [e] at hm3
          simp at hm3
        rw [show c :: cs.take m = [c] ++ cs.take m from rfl,
          List.getLast?_append_of_ne_nil _ hne]
        exact hm3




/-! ## Claim theorems -/

/-- C2: every heading tag matched by the shift (opening or closing,
levels 1-6, case-insensitive) is re-emitted at level `min(level+1, 6)` --
so level 5 and level 6 both produce level 6 -- with the attribute text
kept verbatim on opening tags and dropped on closing tags. -/
theorem claim_c2_shift_per_tag :
    ∀ (s : List Char) (b : Bool) (l : Nat) (a r : List Char),
    matchHeading s = some (b, l, a, r) →
    shift_headings s =
      (if b then ['<', '/', 'h', levelChar (min (l + 1) 6), '>']
       else '<' :: 'h' :: levelChar (min (l + 1) 6) :: (a ++ ['>'])) ++
        shift_headings r ∧
    ((l = 5 ∨ l = 6) → min (l + 1) 6 = 6) := by
  intro s b l a r hm
  cases s with
  | nil => simp [matchHeading] at hm
  | cons c cs =>
    rw [shift_cons_some hm]
    exact ⟨rfl, by omega⟩

/-- C2 witness: a concrete mixed-case level-5 opening tag with an
attribute shifts to a level-6 tag keeping the attribute text. -/
theorem claim_c2_shift_per_tag_witness :
    shift_headings "<H5 id=x>y".toList = "<h6 id=x>y".toList := by
  have h := (claim_c2_shift_per_tag "<H5 id=x>y".toList false 5
    " id=x".toList "y".toList (by decide)).1
  exact h.trans (by decide)

/-- C4: the built element is inserted immediately after the closing `>`
of the first `<body...>` tag of the (shifted) document, preceded by a
newline; with no body tag it is prepended at position 0. -/
theorem claim_c4_insertion_point :
    ∀ (t : List Char) (o : Option (List Char)),
    (∀ n, firstBodyEnd (shift_headings t) = some n →
      normalize t o = (shift_headings t).take n ++
        '\n' :: (titleHtml (resolveTitle t o) ++ (shift_headings t).drop n)) ∧
    (firstBodyEnd (shift_headings t) = none →
      normalize t o = titleHtml (resolveTitle t o) ++ shift_headings t) := by
  intro t o
  have hins := insertTitleAux_eq (titleHtml (resolveTitle t o)) (shift_headings t)
  constructor
  · intro n hn
    rw [hn] at hins
    show (match insertTitleAux (titleHtml (resolveTitle t o)) (shift_headings t) with
      | some r => r
      | none => titleHtml (resolveTitle t o) ++ shift_headings t) = _
    rw [hins]
    rfl
  · intro hn
    rw [hn] at hins
    show (match insertTitleAux (titleHtml (resolveTitle t o)) (shift_headings t) with
      | some r => r
      | none => titleHtml (resolveTitle t o) ++ shift_headings t) = _
    rw [hins]
    rfl

/-- C4 witness: on a concrete document with a body tag the element lands
right after `<body>`; on one without, it is prepended. -/
theorem claim_c4_insertion_point_witness :
    normalize "<body><p>x</p></body>".toList none =
      "<body>\n<h1>Untitled</h1>\n<p>x</p></body>".toList ∧
    normalize "<p>x</p>".toList none = "<h1>Untitled</h1>\n<p>x</p>".toList := by
  constructor
  · have h := (claim_c4_insertion_point "<body><p>x</p></body>".toList none).1
      6 (by decide)
    exact h.trans (by decide)
  · have h := (claim_c4_insertion_point "<p>x</p>".toList none).2 (by decide)
    exact h.trans (by decide)

/-- C5 counterexample: the claim says the resolved title is always
non-empty, but a document whose only title source is an `<h1>` with empty
content resolves to the empty string. -/
theorem claim_c5_counterexample :
    resolveTitle "<h1></h1>".toList none = [] := by decide

theorem clean_title_ne_nil (u : List Char) : clean_title u ≠ [] := by
  show (if strip (beforeSep u) = [] then untitled else strip (beforeSep u)) ≠ []
  split
  · decide
  next hne => exact hne

/-- C5 amended: title resolution always terminates with a string, and the
result is non-empty on the override, `<title>` and fallback paths; only a
title derived from the first `<h1>` can be empty, namely when that
element's content strips and trims to nothing. -/
theorem claim_c5_title_nonempty :
    ∀ (t : List Char) (o : Option (List Char)),
    resolveTitle t o = [] →
    (o = none ∨ o = some []) ∧
      ∃ c, findH1 t = some c ∧ strip (stripTags c) = [] := by
  have hex : ∀ t : List Char, extract_title t = [] →
      ∃ c, findH1 t = some c ∧ strip (stripTags c) = [] := by
    intro t h
    have hh1 : h1Title t = [] → ∃ c, findH1 t = some c ∧ strip (stripTags c) = [] := by
      intro hh
      unfold h1Title at hh
      cases hf : findH1 t with
      | some c =>
        rw [hf] at hh
        exact ⟨c, rfl, hh⟩
      | none =>
        rw [hf] at hh
        exact absurd hh (by decide)
    cases hft : findTitle t with
    | some c =>
      have hre : extract_title t = (if clean_title (strip (htmlUnescape c)) ≠ [] ∧
          clean_title (strip (htmlUnescape c)) ≠ untitled
          then clean_title (strip (htmlUnescape c)) else h1Title t) := by
        unfold extract_title
        rw [hft]
      rw [hre] at h
      split at h
      next hcond => exact absurd h hcond.1
      next => exact hh1 h
    | none =>
      have hre : extract_title t = h1Title t := by
        unfold extract_title
        rw [hft]
      rw [hre] at h
      exact hh1 h
  intro t o h
  match o with
  | some ov =>
    by_cases hov : ov = []
    · subst hov
      rw [show resolveTitle t (some []) =
        (if ([] : List Char) = [] then extract_title t else clean_title []) from rfl,
        if_pos rfl] at h
      exact ⟨Or.inr rfl, hex t h⟩
    · exfalso
      rw [show resolveTitle t (some ov) =
        (if ov = [] then extract_title t else clean_title ov) from rfl,
        if_neg hov] at h
      exact clean_title_ne_nil ov h
  | none => exact ⟨Or.inl rfl, hex t h⟩

/-- C5 witness: the amended statement applied at the counterexample
document. -/
theorem claim_c5_title_nonempty_witness :
    ∃ c, findH1 "<h1></h1>".toList = some c ∧ strip (stripTags c) = [] :=
  (claim_c5_title_nonempty "<h1></h1>".toList none (by decide)).2

/-- C6 counterexample: `"a "` contains no occurrence of the separator
pattern, yet `clean` is not the identity on it (it trims the trailing
blank); the `clean("") = "Untitled"` part of the claim does hold. -/
theorem claim_c6_counterexample :
    hasSep "a ".toList = false ∧ clean_title "a ".toList ≠ "a ".toList ∧
    clean_title "".toList = untitled := by
  refine ⟨by decide, by decide, by decide⟩

/-- C6 amended: on a string with no occurrence of the separator pattern,
`clean` returns the string trimmed of surrounding whitespace -- hence the
string itself when it is non-empty with no surrounding whitespace -- and
`"Untitled"` when the trim is empty; `clean("") = "Untitled"`. -/
theorem claim_c6_clean_no_separator :
    (∀ s : List Char, hasSep s = false →
      clean_title s = if strip s = [] then untitled else strip s) ∧
    clean_title [] = untitled := by
  constructor
  · intro s h
    have hbs : beforeSep s = s := by
      induction s with
      | nil => rfl
      | cons c cs ih =>
        rw [show hasSep (c :: cs) = (sepMatchAt (c :: cs) || hasSep cs) from rfl,
          Bool.or_eq_false_iff] at h
        show (if sepMatchAt (c :: cs) = true then [] else c :: beforeSep cs) = c :: cs
        rw [if_neg (by rw [h.1]; decide), ih h.2]
    show (if strip (beforeSep s) = [] then untitled else strip (beforeSep s)) = _
    rw [hbs]
  · rfl

/-- C6 witness: the amended statement applied at the counterexample. -/
theorem claim_c6_clean_no_separator_witness :
    clean_title "a ".toList = "a".toList := by
  have h := claim_c6_clean_no_separator.1 "a ".toList (by decide)
  exact h.trans (by decide)

/-- C7: the shift leaves all text outside recognized heading tags
unchanged: erasing every recognized heading tag from the shifted document
yields exactly the characters of the original document outside its
recognized heading tags, in order. -/
theorem claim_c7_shift_frame (t : List Char) :
    eraseTags (shift_headings t) = eraseTags t :=
  eraseTags_shift t

/-- C8: `normalize` is not idempotent: on this document the second
application demotes the already-demoted headings once more and inserts a
second title heading. -/
theorem claim_c8_not_idempotent :
    normalize "<body><h1>A</h1></body>".toList none =
      "<body>\n<h1>A</h1>\n<h2>A</h2></body>".toList ∧
    normalize "<body>\n<h1>A</h1>\n<h2>A</h2></body>".toList none =
      "<body>\n<h1>A</h1>\n\n<h2>A</h2>\n<h3>A</h3></body>".toList ∧
    normalize (normalize "<body><h1>A</h1></body>".toList none) none ≠
      normalize "<body><h1>A</h1></body>".toList none := by
  refine ⟨by decide, by decide, by decide⟩

/-- C9: an empty-string override is falsy in Python, so `normalize` falls
through to document-derived title resolution exactly as with no override. -/
theorem claim_c9_empty_override (t : List Char) :
    resolveTitle t (some []) = extract_title t ∧
    normalize t (some []) = normalize t none := by
  have h1 : resolveTitle t (some []) = extract_title t := by
    show (if ([] : List Char) = [] then extract_title t else clean_title []) = _
    rw [if_pos rfl]
  refine ⟨h1, ?_⟩
  show normalize t (some []) = normalize t none
  unfold normalize
  rw [h1]
  rfl




/-- C3: the resolved title follows the precedence chain: a (non-empty)
supplied override yields `clean(override)`; otherwise the first `<title>`
match (entity-unescaped, trimmed, cleaned) when the cleaned result is not
`"Untitled"` (it is never empty); otherwise the first `<h1>` content with
nested tags stripped and trimmed, without cleaning; otherwise the literal
`"Untitled"`. -/
theorem claim_c3_title_precedence :
    ∀ t : List Char,
    (∀ o : List Char, o ≠ [] → resolveTitle t (some o) = clean_title o) ∧
    (∀ c, findTitle t = some c →
      clean_title (strip (htmlUnescape c)) ≠ untitled →
      resolveTitle t none = clean_title (strip (htmlUnescape c))) ∧
    ((findTitle t = none ∨
      ∃ c0, findTitle t = some c0 ∧ clean_title (strip (htmlUnescape c0)) = untitled) →
      (∀ c, findH1 t = some c → resolveTitle t none = strip (stripTags c)) ∧
      (findH1 t = none → resolveTitle t none = untitled)) := by
  intro t
  refine ⟨?_, ?_, ?_⟩
  · intro o ho
    show (if o = [] then extract_title t else clean_title o) = _
    rw [if_neg ho]
  · intro c hft hne
    show extract_title t = _
    have hre : extract_title t = (if clean_title (strip (htmlUnescape c)) ≠ [] ∧
        clean_title (strip (htmlUnescape c)) ≠ untitled
        then clean_title (strip (htmlUnescape c)) else h1Title t) := by
      unfold extract_title
      rw [hft]
    rw [hre, if_pos ⟨clean_title_ne_nil _, hne⟩]
  · intro hcase
    have hext : extract_title t = h1Title t := by
      rcases hcase with hn | ⟨c0, hs, huntit⟩
      · unfold extract_title
        rw [hn]
      · have hre : extract_title t = (if clean_title (strip (htmlUnescape c0)) ≠ [] ∧
            clean_title (strip (htmlUnescape c0)) ≠ untitled
            then clean_title (strip (htmlUnescape c0)) else h1Title t) := by
          unfold extract_title
          rw [hs]
        rw [hre, if_neg fun hcond => hcond.2 huntit]
    constructor
    · intro c hf
      show extract_title t = _
      rw [hext]
      unfold h1Title
      rw [hf]
    · intro hf
      show extract_title t = _
      rw [hext]
      unfold h1Title
      rw [hf]

/-- C3 witness: the chain applied on concrete documents, one per branch. -/
theorem claim_c3_title_precedence_witness :
    resolveTitle "<x>".toList (some "T | S".toList) = "T".toList ∧
    resolveTitle "<title>My Article - BigSite</title>".toList none =
      "My Article".toList ∧
    resolveTitle "<title>Untitled</title><h1>A<b>B</b></h1>".toList none =
      "AB".toList ∧
    resolveTitle "<p>x</p>".toList none = untitled := by
  refine ⟨?_, ?_, ?_, ?_⟩
  · have h := (claim_c3_title_precedence "<x>".toList).1 "T | S".toList (by decide)
    exact h.trans (by decide)
  · have h := (claim_c3_title_precedence "<title>My Article - BigSite</title>".toList).2.1
      "My Article - BigSite".toList (by decide) (by decide)
    exact h.trans (by decide)
  · have h := ((claim_c3_title_precedence
        "<title>Untitled</title><h1>A<b>B</b></h1>".toList).2.2
      (Or.inr ⟨"Untitled".toList, by decide, by decide⟩)).1
      "A<b>B</b>".toList (by decide)
    exact h.trans (by decide)
  · exact ((claim_c3_title_precedence "<p>x</p>".toList).2.2 (Or.inl (by decide))).2
      (by decide)




/-! ## Characterizing the title-tag recognition -/

theorem char_ofNat_toNat {n : Nat} (h : n.isValidChar) : (Char.ofNat n).toNat = n := by
  unfold Char.ofNat
  split
  · rfl
  · simp_all

/-- Only `'<'` itself case-folds to `'<'`. -/
theorem lowerAscii_eq_lt {c : Char} (h : lowerAscii c = '<') : c = '<' := by
  unfold lowerAscii at h
  split at h
  next hc =>
    exfalso
    have h1 : 65 ≤ c.toNat := char_toNat_le_of_le hc.1
    have h2 : c.toNat ≤ 90 := char_toNat_le_of_le hc.2
    have hv : (Char.ofNat (c.toNat + 32)).toNat = c.toNat + 32 :=
      char_ofNat_toNat (Or.inl (by omega))
    have h60 : (Char.ofNat (c.toNat + 32)).toNat = 60 := by rw [h]; rfl
    omega
  next => exact h

/-- `startsWithCI p s` holds exactly when a prefix of `s` case-folds to
`p`. -/
theorem startsWithCI_iff : ∀ (p s : List Char), startsWithCI p s = true ↔
    ∃ s1 s2, s = s1 ++ s2 ∧ s1.map lowerAscii = p := by
  intro p
  induction p with
  | nil =>
    intro s
    constructor
    · intro _
      exact ⟨[], s, rfl, rfl⟩
    · intro _
      rfl
  | cons pc pp ih =>
    intro s
    cases s with
    | nil =>
      constructor
      · intro h
        simp [startsWithCI] at h
      · rintro ⟨s1, s2, h1, h2⟩
        obtain rfl : s1 = [] := by
          cases s1 with
          | nil => rfl
          | cons a b => simp at h1
        simp at h2
    | cons c cs =>
      show ((lowerAscii c = pc : Bool) && startsWithCI pp cs) = true ↔ _
      rw [Bool.and_eq_true, decide_eq_true_eq, ih cs]
      constructor
      · rintro ⟨hc, s1, s2, rfl, hmap⟩
        exact ⟨c :: s1, s2, rfl, by simp [hmap, hc]⟩
      · rintro ⟨s1, s2, heq, hmap⟩
        cases s1 with
        | nil => simp at hmap
        | cons a s1' =>
          simp only [List.cons_append, List.cons.injEq] at heq
          obtain ⟨rfl, rfl⟩ := heq
          simp only [List.map_cons, List.cons.injEq] at hmap
          exact ⟨hmap.1, s1', s2, rfl, hmap.2⟩

theorem takeWhile_middle {p : Char → Bool} : ∀ (a : List Char) (b : Char)
    (z : List Char), (∀ x ∈ a, p x = true) → p b = false →
    (a ++ b :: z).takeWhile p = a ∧ (a ++ b :: z).dropWhile p = b :: z := by
  intro a
  induction a with
  | nil =>
    intro b z _ hb
    constructor
    · show List.takeWhile p (b :: z) = []
      rw [List.takeWhile_cons, hb]
      rfl
    · show List.dropWhile p (b :: z) = b :: z
      rw [List.dropWhile_cons, hb]
      rfl
  | cons x a' ih =>
    intro b z ha hb
    have hx : p x = true := ha x (by simp)
    have ha' : ∀ y ∈ a', p y = true := fun y hy => ha y (by simp [hy])
    obtain ⟨ht, hd⟩ := ih b z ha' hb
    constructor
    · show List.takeWhile p (x :: (a' ++ b :: z)) = x :: a'
      rw [List.takeWhile_cons, hx]
      simp [ht]
    · show List.dropWhile p (x :: (a' ++ b :: z)) = b :: z
      rw [List.dropWhile_cons, hx]
      simpa using hd

/-- The title pattern matches at a position iff the text there is exactly
an attribute-free `<title>` tag, non-empty `'<'`-free content, and a
closing `</title>` tag (all case-insensitive). -/
theorem matchTitleAt_isSome_iff (s : List Char) : (matchTitleAt s).isSome ↔
    ∃ op content cl rest, s = op ++ content ++ cl ++ rest ∧
      op.map lowerAscii = "<title>".toList ∧ content ≠ [] ∧
      (∀ x ∈ content, x ≠ '<') ∧ cl.map lowerAscii = "</title>".toList := by
  have hform : matchTitleAt s = (if startsWithCI "<title>".toList s then
      (if (s.drop 7).takeWhile (fun c => c != '<') ≠ [] ∧
          startsWithCI "</title>".toList ((s.drop 7).dropWhile (fun c => c != '<')) then
        some ((s.drop 7).takeWhile (fun c => c != '<'))
      else none)
    else none) := rfl
  constructor
  · intro h
    rw [hform] at h
    split at h
    next hstart =>
      split at h
      next hcond =>
        obtain ⟨op, after, rfl, hmap⟩ := (startsWithCI_iff _ _).mp hstart
        have hlen : op.length = 7 := by
          have := congrArg List.length hmap
          simpa using this
        have hdrop : (op ++ after).drop 7 = after := by
          rw [← hlen, List.drop_left]
        rw [hdrop] at hcond
        obtain ⟨hne, hcl⟩ := hcond
        obtain ⟨cl, rest, hrest, hmapcl⟩ := (startsWithCI_iff _ _).mp hcl
        refine ⟨op, after.takeWhile (fun c => c != '<'), cl, rest, ?_, hmap, hne, ?_, hmapcl⟩
        · simp only [List.append_assoc]
          rw [← hrest, List.takeWhile_append_dropWhile]
        · intro x hx
          have := List.mem_takeWhile_imp hx
          simpa using this
      next => simp at h
    next => simp at h
  · rintro ⟨op, content, cl, rest, rfl, hmap, hne, hnolt, hmapcl⟩
    have hlen : op.length = 7 := by
      have := congrArg List.length hmap
      simpa using this
    obtain ⟨cl0, cl', rfl⟩ : ∃ cl0 cl', cl = cl0 :: cl' := by
      cases cl with
      | nil => simp at hmapcl
      | cons cl0 cl' => exact ⟨cl0, cl', rfl⟩
    have hcl0 : cl0 = '<' := by
      simp only [List.map_cons] at hmapcl
      exact lowerAscii_eq_lt (List.cons.injEq .. |>.mp hmapcl).1
    subst hcl0
    have hstart : startsWithCI "<title>".toList
        (op ++ content ++ '<' :: cl' ++ rest) = true := by
      rw [startsWithCI_iff]
      exact ⟨op, content ++ '<' :: cl' ++ rest, by simp, hmap⟩
    rw [hform, if_pos hstart]
    have hdrop : (op ++ content ++ '<' :: cl' ++ rest).drop 7 =
        content ++ '<' :: (cl' ++ rest) := by
      rw [show op ++ content ++ '<' :: cl' ++ rest
          = op ++ (content ++ '<' :: (cl' ++ rest)) from by simp, ← hlen,
        List.drop_left]
    rw [hdrop]
    obtain ⟨htake, hdropw⟩ := @takeWhile_middle (fun c => c != '<') content '<'
      (cl' ++ rest)
      (fun x hx => by rw [bne_iff_ne]; exact hnolt x hx) (by decide)
    rw [htake, hdropw]
    have hclr : startsWithCI "</title>".toList ('<' :: (cl' ++ rest)) = true := by
      rw [startsWithCI_iff]
      exact ⟨'<' :: cl', rest, by simp, hmapcl⟩
    rw [if_pos ⟨hne, hclr⟩]
    rfl

/-- The search succeeds iff the pattern matches at some position. -/
theorem findTitle_isSome_iff : ∀ t : List Char, (findTitle t).isSome ↔
    ∃ pre suf, t = pre ++ suf ∧ (matchTitleAt suf).isSome := by
  intro t
  induction t with
  | nil =>
    constructor
    · intro h
      simp [findTitle] at h
    · rintro ⟨pre, suf, heq, hm⟩
      obtain rfl : suf = [] := by
        cases suf with
        | nil => rfl
        | cons a b => simp at heq
      simp [matchTitleAt, startsWithCI] at hm
  | cons c cs ih =>
    show (match matchTitleAt (c :: cs) with
      | some r => some r
      | none => findTitle cs).isSome ↔ _
    cases hm : matchTitleAt (c :: cs) with
    | some r =>
      simp only [Option.isSome_some, true_iff]
      exact ⟨[], c :: cs, rfl, by rw [hm]; rfl⟩
    | none =>
      rw [ih]
      constructor
      · rintro ⟨pre, suf, rfl, hs⟩
        exact ⟨c :: pre, suf, rfl, hs⟩
      · rintro ⟨pre, suf, heq, hs⟩
        cases pre with
        | nil =>
          obtain rfl : suf = c :: cs := heq.symm
          rw [hm] at hs
          simp at hs
        | cons p pre' =>
          simp only [List.cons_append, List.cons.injEq] at heq
          obtain ⟨rfl, rfl⟩ := heq
          exact ⟨pre', suf, rfl, hs⟩




/-- C10: the `<title>` strategy recognizes an element exactly when an
attribute-free `<title>` tag is followed by non-empty `'<'`-free content
and a `</title>` tag (case-insensitive); when it finds nothing, resolution
falls through to the `<h1>` strategy or `"Untitled"`. -/
theorem claim_c10_title_recognition :
    ∀ t : List Char,
    ((findTitle t).isSome ↔ ∃ pre op content cl rest,
      t = pre ++ op ++ content ++ cl ++ rest ∧
      op.map lowerAscii = "<title>".toList ∧ content ≠ [] ∧
      (∀ x ∈ content, x ≠ '<') ∧ cl.map lowerAscii = "</title>".toList) ∧
    (findTitle t = none → extract_title t = h1Title t) := by
  intro t
  constructor
  · rw [findTitle_isSome_iff]
    constructor
    · rintro ⟨pre, suf, rfl, hs⟩
      obtain ⟨op, content, cl, rest, rfl, h1, h2, h3, h4⟩ :=
        (matchTitleAt_isSome_iff suf).mp hs
      exact ⟨pre, op, content, cl, rest, by simp, h1, h2, h3, h4⟩
    · rintro ⟨pre, op, content, cl, rest, rfl, h1, h2, h3, h4⟩
      refine ⟨pre, op ++ content ++ cl ++ rest, by simp, ?_⟩
      exact (matchTitleAt_isSome_iff _).mpr ⟨op, content, cl, rest, rfl, h1, h2, h3, h4⟩
  · intro hn
    unfold extract_title
    rw [hn]

/-- C10 witness: a title tag with an attribute is not recognized, and
resolution falls through to the `<h1>` strategy. -/
theorem claim_c10_title_recognition_witness :
    findTitle "<title lang=\"en\">X</title><h1>Y</h1>".toList = none ∧
    extract_title "<title lang=\"en\">X</title><h1>Y</h1>".toList = "Y".toList := by
  refine ⟨by decide, ?_⟩
  have h := (claim_c10_title_recognition
    "<title lang=\"en\">X</title><h1>Y</h1>".toList).2 (by decide)
  exact h.trans (by decide)

/-- C1: the output of `normalize` contains exactly one recognized level-1
opening heading tag and one matching level-1 closing tag (the inserted
title element, opening before closing), and every other recognized
heading tag -- in particular every one originating from the input -- has
level in `[2,6]` (so all levels lie in `[1,6]`). -/
theorem claim_c1_single_title_heading :
    ∀ (t : List Char) (o : Option (List Char)),
    (scanTags (normalize t o)).filter (fun p => p.2 == 1) = [(false, 1), (true, 1)] ∧
    ∀ p ∈ scanTags (normalize t o), 1 ≤ p.2 ∧ p.2 ≤ 6 := by
  intro t o
  have hone : ((1 : Nat) == 1) = true := by decide
  have hlevels := shift_levels t
  have hfilter_shift : ∀ L : List (Bool × Nat),
      (∀ p ∈ L, 2 ≤ p.2 ∧ p.2 ≤ 6) → L.filter (fun p => p.2 == 1) = [] := by
    intro L hL
    rw [List.filter_eq_nil_iff]
    intro p hp
    have := hL p hp
    simp only [beq_iff_eq]
    omega
  cases hf : firstBodyEnd (shift_headings t) with
  | none =>
    have hins : insertTitleAux (titleHtml (resolveTitle t o)) (shift_headings t)
        = none := by
      rw [insertTitleAux_eq, hf]
      rfl
    have hnorm : normalize t o =
        titleHtml (resolveTitle t o) ++ shift_headings t := by
      show (match insertTitleAux (titleHtml (resolveTitle t o)) (shift_headings t) with
        | some r => r
        | none => titleHtml (resolveTitle t o) ++ shift_headings t) = _
      rw [hins]
    rw [hnorm, scanTags_titleHtml]
    constructor
    · have hnil := hfilter_shift _ hlevels
      simp [List.filter_cons, hnil]
    · intro p hp
      rcases List.mem_cons.mp hp with rfl | hp
      · exact ⟨le_rfl, by omega⟩
      rcases List.mem_cons.mp hp with rfl | hp
      · exact ⟨le_rfl, by omega⟩
      have := hlevels p hp
      omega
  | some n =>
    obtain ⟨hn1, hn2, hnlast⟩ := firstBodyEnd_spec hf
    have hins : insertTitleAux (titleHtml (resolveTitle t o)) (shift_headings t)
        = some ((shift_headings t).take n ++ '\n' ::
          (titleHtml (resolveTitle t o) ++ (shift_headings t).drop n)) := by
      rw [insertTitleAux_eq, hf]
      rfl
    have hnorm : normalize t o = (shift_headings t).take n ++ '\n' ::
        (titleHtml (resolveTitle t o) ++ (shift_headings t).drop n) := by
      show (match insertTitleAux (titleHtml (resolveTitle t o)) (shift_headings t) with
        | some r => r
        | none => titleHtml (resolveTitle t o) ++ shift_headings t) = _
      rw [hins]
    have hscan : scanTags (normalize t o) = scanTags ((shift_headings t).take n) ++
        ((false, 1) :: (true, 1) :: scanTags ((shift_headings t).drop n)) := by
      rw [hnorm, scanTags_append_gt hnlast,
        scanTags_cons_none (matchHeading_ne_lt (by decide) _), scanTags_titleHtml]
    have hsS : scanTags (shift_headings t) =
        scanTags ((shift_headings t).take n) ++ scanTags ((shift_headings t).drop n) := by
      conv_lhs => rw [← List.take_append_drop n (shift_headings t)]
      exact scanTags_append_gt hnlast _
    have htakelev : ∀ p ∈ scanTags ((shift_headings t).take n), 2 ≤ p.2 ∧ p.2 ≤ 6 := by
      intro p hp
      exact hlevels p (by rw [hsS]; exact List.mem_append_left _ hp)
    have hdroplev : ∀ p ∈ scanTags ((shift_headings t).drop n), 2 ≤ p.2 ∧ p.2 ≤ 6 := by
      intro p hp
      exact hlevels p (by rw [hsS]; exact List.mem_append_right _ hp)
    rw [hscan]
    constructor
    · have hnil1 := hfilter_shift _ htakelev
      have hnil2 := hfilter_shift _ hdroplev
      simp [List.filter_append, List.filter_cons, hnil1, hnil2]
    · intro p hp
      rcases List.mem_append.mp hp with hp | hp
      · have := htakelev p hp
        omega
      rcases List.mem_cons.mp hp with rfl | hp
      · exact ⟨le_rfl, by omega⟩
      rcases List.mem_cons.mp hp with rfl | hp
      · exact ⟨le_rfl, by omega⟩
      have := hdroplev p hp
      omega




/-- C1 witness: the invariant applied on a concrete document, including a
discharge of the membership hypothesis of the level-bound part. -/
theorem claim_c1_single_title_heading_witness :
    (scanTags (normalize "<body><h2>A</h2></body>".toList none)).filter
      (fun p => p.2 == 1) = [(false, 1), (true, 1)] ∧
    (1 ≤ ((false, 3) : Bool × Nat).2 ∧ ((false, 3) : Bool × Nat).2 ≤ 6) :=
  ⟨(claim_c1_single_title_heading "<body><h2>A</h2></body>".toList none).1,
   (claim_c1_single_title_heading "<body><h2>A</h2></body>".toList none).2
     (false, 3) (by decide)⟩


end Deckle
